import Mathlib

/-!
Verification of the logistic-regression classification core.

The repository trains binary and multi-class classifiers by batch gradient
descent on regularized logistic regression.  The notebook under `src/`
constructs design matrices (bias column of ones prepended), calls
`gradient_descent` from the module `logistic_regression`, and predicts with
two rules (rounding the logistic score on the test set; the sign of the raw
score for new messages).  The numeric core (`logistic`, `cost_function`,
`gradient`, `gradient_descent`) and the one-vs-all wrapper live in files that
are not part of `src/`, so they are modelled here from the specification.
Vectors are `Fin`-indexed real functions; matrices are row functions.
-/


/-- Modelled from the spec: the Logistic Link of the module
`logistic_regression` (absent from `src/`), `logistic z = 1/(1+e^(-z))`. -/
noncomputable def logistic (z : ℝ) : ℝ := 1 / (1 + Real.exp (-z))

/-- Modelled from the spec: elementwise application of the Logistic Link to an
array, as numpy broadcasting does. -/
noncomputable def logisticVec (v : List ℝ) : List ℝ := v.map logistic

/-- Dot product of two vectors, as `np.dot`. -/
noncomputable def dot {n : ℕ} (a b : Fin n → ℝ) : ℝ := ∑ j, a j * b j

/-- Hypothesis function from the notebook cell
`h_theta = lambda X_i: logistic(np.dot(theta.T, X_i))`. -/
noncomputable def h_theta {n : ℕ} (θ x : Fin n → ℝ) : ℝ := logistic (dot θ x)

/-- Modelled from the spec: the Cost Evaluator of the module
`logistic_regression` (absent from `src/`):
`J = -(1/m)·Σ_i [y_i·log(h_θ(x_i)) + (1-y_i)·log(1-h_θ(x_i))]
   + (λ/(2m))·Σ_{j≥1} θ_j²`, the regularization sum excluding the bias
weight at index 0. -/
noncomputable def cost_function {m n : ℕ} (X : Fin m → Fin n → ℝ)
    (y : Fin m → ℝ) (θ : Fin n → ℝ) (lam : ℝ) : ℝ :=
  -(1 / (m : ℝ)) * ∑ i, (y i * Real.log (logistic (dot θ (X i)))
      + (1 - y i) * Real.log (1 - logistic (dot θ (X i))))
    + lam / (2 * (m : ℝ)) *
        ∑ j ∈ Finset.univ.filter (fun j : Fin n => (j : ℕ) ≠ 0), θ j ^ 2

/-- Modelled from the spec: the Gradient Evaluator of the module
`logistic_regression` (absent from `src/`):
`∂J/∂θ_j = (1/m)·Σ_i (h_θ(x_i) - y_i)·x_ij + (λ/m)·θ_j` for `j ≥ 1`,
with no regularization term for `j = 0`. -/
noncomputable def cost_gradient {m n : ℕ} (X : Fin m → Fin n → ℝ)
    (y : Fin m → ℝ) (θ : Fin n → ℝ) (lam : ℝ) : Fin n → ℝ :=
  fun j => (1 / (m : ℝ)) * ∑ i, (logistic (dot θ (X i)) - y i) * X i j
    + if (j : ℕ) = 0 then 0 else lam / (m : ℝ) * θ j

/-- One synchronous gradient-descent step: every coordinate of θ is replaced
simultaneously by `θ_j - α·g_j`, the gradient g being evaluated at the old θ. -/
noncomputable def gdStep {m n : ℕ} (X : Fin m → Fin n → ℝ) (y : Fin m → ℝ)
    (α lam : ℝ) (θ : Fin n → ℝ) : Fin n → ℝ :=
  fun j => θ j - α * cost_gradient X y θ lam j

/-- Modelled from the spec: the Gradient Descent Driver of the module
`logistic_regression` (absent from `src/`).  It performs exactly `T`
synchronous update steps, records the cost after each update, and returns the
final θ together with the cost history. -/
noncomputable def gradient_descent {m n : ℕ} (X : Fin m → Fin n → ℝ)
    (y : Fin m → ℝ) (θ : Fin n → ℝ) (α : ℝ) (T : ℕ) (lam : ℝ) :
    (Fin n → ℝ) × List ℝ :=
  match T with
  | 0 => (θ, [])
  | Nat.succ T1 =>
    let θ1 := gdStep X y α lam θ
    let r := gradient_descent X y θ1 α T1 lam
    (r.1, cost_function X y θ1 lam :: r.2)

def Xex : Fin 1 → Fin 1 → ℝ := fun _ _ => 1

def yex : Fin 1 → ℝ := fun _ => 1

def thetaex : Fin 1 → ℝ := fun _ => 0

/-- Modelled from the spec: epsilon-clamping of a probability into
`[ε, 1-ε]`, the numeric guard of the Cost Evaluator (absent from `src/`). -/
noncomputable def clip (eps p : ℝ) : ℝ := max eps (min (1 - eps) p)

/-- Modelled from the spec: the Cost Evaluator with its edge-case guard, the
probability being clamped away from 0 and 1 before its logarithm is taken,
locally inside the evaluator (no error is ever raised). -/
noncomputable def cost_function_clamped (eps : ℝ) {m n : ℕ}
    (X : Fin m → Fin n → ℝ) (y : Fin m → ℝ) (θ : Fin n → ℝ) (lam : ℝ) : ℝ :=
  -(1 / (m : ℝ)) * ∑ i, (y i * Real.log (clip eps (logistic (dot θ (X i))))
      + (1 - y i) * Real.log (1 - clip eps (logistic (dot θ (X i)))))
    + lam / (2 * (m : ℝ)) *
        ∑ j ∈ Finset.univ.filter (fun j : Fin n => (j : ℕ) ≠ 0), θ j ^ 2

/-- Modelled from the spec: index of the maximum of a list of scores, ties
broken by the lowest index (the arg-max policy of the One-vs-All wrapper,
whose code is absent from `src/`). -/
def argmaxIdx {α : Type} [LinearOrder α] : List α → ℕ
  | [] => 0
  | [_] => 0
  | a :: b :: rest =>
    let r := argmaxIdx (b :: rest)
    if a < (b :: rest).getD r b then r + 1 else 0

/-- Modelled from the spec: the binary relabeling of the One-vs-All wrapper
(absent from `src/`): class k gets the label vector with entry 1 exactly when
the true label equals k, else 0. -/
noncomputable def ova_label {m : ℕ} (y : Fin m → ℕ) (k : ℕ) : Fin m → ℝ :=
  fun i => if y i = k then 1 else 0

/-- Modelled from the spec: One-vs-All training (absent from `src/`): for each
class k the Gradient Descent Driver runs independently on `(X, yₖ)`; the K
resulting parameter vectors are the rows of Θ. -/
noncomputable def onevsall_train (K : ℕ) {m n : ℕ} (X : Fin m → Fin n → ℝ)
    (y : Fin m → ℕ) (θ0 : Fin n → ℝ) (α : ℝ) (T : ℕ) (lam : ℝ) :
    Fin K → Fin n → ℝ :=
  fun k => (gradient_descent X (ova_label y (k : ℕ)) θ0 α T lam).1

/-- Modelled from the spec: the per-class scores of the One-vs-All wrapper,
`score_k = Logistic(Θₖ·x)` for k in 0..K-1. -/
noncomputable def ova_scores {n : ℕ} (K : ℕ) (Θ : Fin K → Fin n → ℝ)
    (x : Fin n → ℝ) : List ℝ :=
  List.ofFn (fun k : Fin K => logistic (dot (Θ k) x))

/-- Modelled from the spec: One-vs-All prediction (absent from `src/`),
the arg-max over k of `Logistic(Θₖ·x)`, ties broken by lowest class index. -/
noncomputable def predict_onevsall {n : ℕ} (K : ℕ) (Θ : Fin K → Fin n → ℝ)
    (x : Fin n → ℝ) : ℕ :=
  argmaxIdx (ova_scores K Θ x)

def yclassex : Fin 1 → ℕ := fun _ => 0

/-- Modelled from the spec: the validating front end of the training function
(absent from `src/`).  It rejects a negative λ and shape mismatches (X column
count vs θ length, X row count vs y length) with a descriptive error before
any iteration runs; on valid input it runs the Gradient Descent Driver and
returns both outputs. -/
noncomputable def gradient_descent_checked (X : List (List ℝ)) (y θ0 : List ℝ)
    (α : ℝ) (T : ℕ) (lam : ℝ) : Except String (List ℝ × List ℝ) :=
  if lam < 0 then
    Except.error "invalid regularization strength: lambda must be nonnegative"
  else if hX : ∀ row ∈ X, row.length = θ0.length then
    if hY : X.length = y.length then
      let Xf : Fin X.length → Fin θ0.length → ℝ := fun i j =>
        (X.get i).get (Fin.cast (hX (X.get i) (X.get_mem i.val i.isLt)).symm j)
      let yf : Fin X.length → ℝ := fun i => y.get (Fin.cast hY i)
      let r := gradient_descent Xf yf θ0.get α T lam
      Except.ok (List.ofFn r.1, r.2)
    else
      Except.error "shape mismatch: the row count of X must equal the length of y"
  else
    Except.error "shape mismatch: the column count of X must equal the length of theta"

/-- Bias-column construction from the notebook cell
`X = np.column_stack([np.ones(m), X])`: a constant 1 is prepended to every
row of the raw feature matrix. -/
def addBias (X0 : List (List ℝ)) : List (List ℝ) := X0.map (fun row => 1 :: row)

/-- Row selection from the notebook cells `X = X[subset,:]`,
`X_train = X[train,:]`, `X_test = X[test,:]`. -/
def selectRows (X : List (List ℝ)) (idx : List ℕ) : List (List ℝ) :=
  idx.map (fun i => X.getD i [])

/-- Feature extraction for a new message, from the notebook function
`extract_features`: the vectorizer output gets a constant 1 prepended by
`np.insert(x, 0, 1)`. -/
def extract_features (x0 : List ℝ) : List ℝ := 1 :: x0

/-- Rounding as `np.round`: round half to even, otherwise to the nearest
integer (used by the notebook in
`predictions = np.round(np.apply_along_axis(h_theta, 1, X_test))`). -/
noncomputable def npRound (x : ℝ) : ℤ :=
  if Int.fract x = 1 / 2 then (if Even ⌊x⌋ then ⌊x⌋ else ⌊x⌋ + 1) else round x

/-- Test-set prediction rule from the notebook: a message is classified spam
exactly when `np.round(logistic(θ·x))` equals 1. -/
def test_set_spam {n : ℕ} (θ x : Fin n → ℝ) : Prop :=
  npRound (h_theta θ x) = 1

/-- New-message prediction rule from the notebook cell
`print("ham" if np.sum(np.dot(theta.T, x)) < 0 else "spam")`: spam exactly
when the raw score is not negative. -/
def new_msg_spam {n : ℕ} (θ x : Fin n → ℝ) : Prop :=
  ¬ dot θ x < 0

theorem logistic_pos (z : ℝ) : 0 < logistic z := by
  unfold logistic
  positivity

theorem one_add_exp_pos (z : ℝ) : 0 < 1 + Real.exp (-z) := by
  positivity

theorem logistic_lt_one (z : ℝ) : logistic z < 1 := by
  unfold logistic
  rw [div_lt_one (one_add_exp_pos z)]
  have := Real.exp_pos (-z)
  linarith

theorem logistic_zero_eq : logistic 0 = 1 / 2 := by
  unfold logistic
  norm_num

theorem logistic_neg_add (z : ℝ) : logistic z + logistic (-z) = 1 := by
  unfold logistic
  have h1 : (1 : ℝ) + Real.exp (-z) ≠ 0 := ne_of_gt (one_add_exp_pos z)
  have h2 : (1 : ℝ) + Real.exp z ≠ 0 := by
    have := one_add_exp_pos (-z)
    rw [neg_neg] at this
    exact ne_of_gt this
  have hmul : Real.exp (-z) * Real.exp z = 1 := by
    rw [← Real.exp_add]
    simp
  field_simp
  ring_nf
  nlinarith [hmul]

/-- C4: for every finite real z the logistic function returns 1/(1+e^(-z)),
satisfies 0 < Logistic(z) < 1, Logistic(0) = 0.5 and
Logistic(z) + Logistic(-z) = 1, and applied to an array it acts elementwise
(it is a pure function of its input). -/
theorem logistic_link_properties :
    (∀ z : ℝ, logistic z = 1 / (1 + Real.exp (-z))
        ∧ 0 < logistic z ∧ logistic z < 1 ∧ logistic z + logistic (-z) = 1)
    ∧ logistic 0 = 1 / 2
    ∧ (∀ v : List ℝ, (logisticVec v).length = v.length
        ∧ ∀ i : ℕ, (logisticVec v)[i]? = Option.map logistic v[i]?) := by
  refine ⟨fun z => ⟨rfl, logistic_pos z, logistic_lt_one z, logistic_neg_add z⟩,
    logistic_zero_eq, fun v => ⟨?_, fun i => ?_⟩⟩
  · simp [logisticVec]
  · simp [logisticVec]

theorem gd_spec {m n : ℕ} (X : Fin m → Fin n → ℝ) (y : Fin m → ℝ)
    (θ0 : Fin n → ℝ) (α lam : ℝ) (T : ℕ) :
    gradient_descent X y θ0 α T lam
      = ((gdStep X y α lam)^[T] θ0,
         (List.range T).map
           (fun t => cost_function X y ((gdStep X y α lam)^[t + 1] θ0) lam)) := by
  induction T generalizing θ0 with
  | zero => simp [gradient_descent]
  | succ T ih =>
    simp only [gradient_descent]
    rw [ih (gdStep X y α lam θ0), Prod.mk.injEq]
    constructor
    · exact (Function.iterate_succ_apply (gdStep X y α lam) T θ0).symm
    · rw [List.range_succ_eq_map, List.map_cons, List.map_map, List.cons.injEq]
      constructor
      · exact congrArg (fun w => cost_function X y w lam)
          (congrFun (Function.iterate_one (gdStep X y α lam)) θ0).symm
      · refine List.map_congr_left (fun t _ => ?_)
        exact congrArg (fun w => cost_function X y w lam)
          (Function.iterate_succ_apply (gdStep X y α lam) (t + 1) θ0).symm

/-- C1: for every X, y, θ₀, α, T and λ, `gradient_descent` performs exactly
`T` update steps, each step computing the full gradient at the current θ and
replacing all coordinates simultaneously by `θ - α·g` (the step `gdStep`
evaluates the gradient only at the previous θ), and it returns the pair of
the final θ (a vector of length n+1) and a cost history of length exactly
`T`. -/
theorem gradient_descent_runs_T_sync_steps {m n : ℕ}
    (X : Fin m → Fin (n + 1) → ℝ) (y : Fin m → ℝ) (θ0 : Fin (n + 1) → ℝ)
    (α lam : ℝ) (T : ℕ) :
    gradient_descent X y θ0 α T lam
      = ((gdStep X y α lam)^[T] θ0,
         (List.range T).map
           (fun t => cost_function X y ((gdStep X y α lam)^[t + 1] θ0) lam))
    ∧ (gradient_descent X y θ0 α T lam).2.length = T :=
  ⟨gd_spec X y θ0 α lam T, by rw [gd_spec]; simp⟩

theorem filter_ne_zero_eq_erase (n : ℕ) (hn : 0 < n) :
    Finset.univ.filter (fun j : Fin n => (j : ℕ) ≠ 0)
      = Finset.univ.erase ⟨0, hn⟩ := by
  ext j
  simp only [Finset.mem_filter, Finset.mem_univ, true_and, Finset.mem_erase,
    and_true]
  constructor
  · intro h hj
    exact h (by rw [hj])
  · intro h hj
    exact h (Fin.ext hj)

/-- C2: `cost_function` returns the scalar
`J = -(1/m)·Σ_i [y_i·log(h_θ(x_i)) + (1-y_i)·log(1-h_θ(x_i))]
   + (λ/(2m))·Σ_{j=1..n} θ_j²`, where `h_θ(x_i)` is the logistic function of
`θ·x_i` and the regularization sum excludes the bias weight θ₀ (stated here
as the full sum of squares minus the square of the bias weight). -/
theorem cost_function_formula {m n : ℕ} (X : Fin m → Fin n → ℝ)
    (y : Fin m → ℝ) (θ : Fin n → ℝ) (lam : ℝ) (hn : 0 < n) :
    cost_function X y θ lam
      = -(1 / (m : ℝ)) * ∑ i, (y i * Real.log (h_theta θ (X i))
          + (1 - y i) * Real.log (1 - h_theta θ (X i)))
        + lam / (2 * (m : ℝ)) * ((∑ j, θ j ^ 2) - θ ⟨0, hn⟩ ^ 2) := by
  unfold cost_function h_theta
  congr 1
  congr 1
  rw [filter_ne_zero_eq_erase n hn, eq_sub_iff_add_eq,
    Finset.sum_erase_add Finset.univ _ (Finset.mem_univ _)]

theorem cost_function_formula_witness :
    0 < 1 ∧
    cost_function Xex yex thetaex 1
      = -(1 / ((1 : ℕ) : ℝ)) * ∑ i, (yex i * Real.log (h_theta thetaex (Xex i))
          + (1 - yex i) * Real.log (1 - h_theta thetaex (Xex i)))
        + 1 / (2 * ((1 : ℕ) : ℝ)) *
            ((∑ j, thetaex j ^ 2) - thetaex ⟨0, Nat.one_pos⟩ ^ 2) :=
  ⟨Nat.one_pos, cost_function_formula Xex yex thetaex 1 Nat.one_pos⟩

theorem hasDerivAt_logistic (z : ℝ) :
    HasDerivAt logistic (logistic z * (1 - logistic z)) z := by
  have h1 : HasDerivAt (fun w : ℝ => -w) (-1) z := hasDerivAt_neg z
  have h2 : HasDerivAt (fun w : ℝ => Real.exp (-w)) (Real.exp (-z) * -1) z :=
    h1.exp
  have h3 : HasDerivAt (fun w : ℝ => 1 + Real.exp (-w)) (Real.exp (-z) * -1) z :=
    h2.const_add 1
  have h4 := h3.inv (ne_of_gt (one_add_exp_pos z))
  have heq : (fun w : ℝ => (1 + Real.exp (-w))⁻¹) = logistic := by
    funext w
    rw [logistic, one_div]
  rw [heq] at h4
  convert h4 using 1
  have h5 : (1 : ℝ) + Real.exp (-z) ≠ 0 := ne_of_gt (one_add_exp_pos z)
  unfold logistic
  field_simp
  ring

theorem dot_update {n : ℕ} (θ x : Fin n → ℝ) (j : Fin n) (t : ℝ) :
    dot (Function.update θ j t) x = (dot θ x - θ j * x j) + x j * t := by
  unfold dot
  have h : ∀ k, Function.update θ j t k * x k
      = Function.update (fun k => θ k * x k) j (t * x j) k := by
    intro k
    by_cases hk : k = j
    · subst hk; simp
    · simp [Function.update_noteq hk]
  rw [Finset.sum_congr rfl (fun k _ => h k),
    Finset.sum_update_of_mem (Finset.mem_univ j)]
  have h2 := Finset.sum_eq_sum_diff_singleton_add (Finset.mem_univ j)
    (fun k => θ k * x k)
  rw [h2]
  ring

theorem hasDerivAt_xent (c b yv t : ℝ) :
    HasDerivAt (fun u => yv * Real.log (logistic (c + b * u))
        + (1 - yv) * Real.log (1 - logistic (c + b * u)))
      ((yv - logistic (c + b * t)) * b) t := by
  set s := c + b * t with hs
  have hlin : HasDerivAt (fun u : ℝ => c + b * u) b t := by
    simpa using ((hasDerivAt_id t).const_mul b).const_add c
  have hL : HasDerivAt (fun u => logistic (c + b * u))
      (logistic s * (1 - logistic s) * b) t := (hasDerivAt_logistic s).comp t hlin
  have hlog1 : HasDerivAt (fun u => Real.log (logistic (c + b * u)))
      (logistic s * (1 - logistic s) * b / logistic s) t :=
    hL.log (ne_of_gt (logistic_pos s))
  have h1m : HasDerivAt (fun u => 1 - logistic (c + b * u))
      (-(logistic s * (1 - logistic s) * b)) t := hL.const_sub 1
  have hne : 1 - logistic s ≠ 0 := by
    have := logistic_lt_one s
    intro h
    have : logistic s = 1 := by linarith
    linarith [logistic_lt_one s]
  have hlog2 : HasDerivAt (fun u => Real.log (1 - logistic (c + b * u)))
      (-(logistic s * (1 - logistic s) * b) / (1 - logistic s)) t := h1m.log hne
  have htot := (hlog1.const_mul yv).add (hlog2.const_mul (1 - yv))
  convert htot using 1
  have hpos : logistic s ≠ 0 := ne_of_gt (logistic_pos s)
  field_simp
  ring

theorem hasDerivAt_reg {n : ℕ} (θ : Fin n → ℝ) (j : Fin n) (t : ℝ) :
    HasDerivAt (fun u => ∑ k ∈ Finset.univ.filter (fun k : Fin n => (k : ℕ) ≠ 0),
        Function.update θ j u k ^ 2)
      (if (j : ℕ) = 0 then 0 else 2 * t) t := by
  by_cases hj : (j : ℕ) = 0
  · rw [if_pos hj]
    have heq : (fun u => ∑ k ∈ Finset.univ.filter (fun k : Fin n => (k : ℕ) ≠ 0),
          Function.update θ j u k ^ 2)
        = fun _ => ∑ k ∈ Finset.univ.filter (fun k : Fin n => (k : ℕ) ≠ 0),
            θ k ^ 2 := by
      funext u
      refine Finset.sum_congr rfl (fun k hk => ?_)
      have hkj : k ≠ j := by
        intro h
        rw [Finset.mem_filter] at hk
        exact hk.2 (by rw [h]; exact hj)
      rw [Function.update_noteq hkj]
    rw [heq]
    exact hasDerivAt_const t _
  · rw [if_neg hj]
    have hmem : j ∈ Finset.univ.filter (fun k : Fin n => (k : ℕ) ≠ 0) := by
      simp [hj]
    have heq : (fun u => ∑ k ∈ Finset.univ.filter (fun k : Fin n => (k : ℕ) ≠ 0),
          Function.update θ j u k ^ 2)
        = fun u => (∑ k ∈ (Finset.univ.filter
              (fun k : Fin n => (k : ℕ) ≠ 0)).erase j, θ k ^ 2) + u ^ 2 := by
      funext u
      rw [← Finset.sum_erase_add _ _ hmem]
      congr 1
      · refine Finset.sum_congr rfl (fun k hk => ?_)
        rw [Function.update_noteq (Finset.mem_erase.mp hk).1]
      · rw [Function.update_same]
    rw [heq]
    have h2 : HasDerivAt (fun u : ℝ => u ^ 2) (2 * t) t := by
      simpa using hasDerivAt_pow 2 t
    exact h2.const_add _

/-- C3: the gradient evaluator returns the vector whose j-th entry is
`(1/m)·Σ_i (h_θ(x_i) - y_i)·x_ij` plus `(λ/m)·θ_j` for `j ≥ 1` and with no
regularization term for `j = 0`, and this vector is the exact analytic
gradient of the Cost Evaluator: its j-th entry is the derivative of the cost
along the j-th coordinate of θ. -/
theorem cost_gradient_formula_and_deriv {m n : ℕ} (X : Fin m → Fin n → ℝ)
    (y : Fin m → ℝ) (θ : Fin n → ℝ) (lam : ℝ) (j : Fin n) :
    cost_gradient X y θ lam j
      = (1 / (m : ℝ)) * ∑ i, (h_theta θ (X i) - y i) * X i j
        + (if (j : ℕ) = 0 then 0 else lam / (m : ℝ) * θ j)
    ∧ HasDerivAt (fun t => cost_function X y (Function.update θ j t) lam)
        (cost_gradient X y θ lam j) (θ j) := by
  constructor
  · rfl
  · have hfun : (fun t => cost_function X y (Function.update θ j t) lam)
        = fun t => -(1 / (m : ℝ)) * ∑ i,
              (y i * Real.log (logistic ((dot θ (X i) - θ j * X i j) + X i j * t))
               + (1 - y i) *
                  Real.log (1 - logistic ((dot θ (X i) - θ j * X i j) + X i j * t)))
            + lam / (2 * (m : ℝ)) *
                ∑ k ∈ Finset.univ.filter (fun k : Fin n => (k : ℕ) ≠ 0),
                  Function.update θ j t k ^ 2 := by
      funext t
      unfold cost_function
      congr 2
      refine Finset.sum_congr rfl (fun i _ => ?_)
      rw [dot_update]
    rw [hfun]
    have hsum : HasDerivAt (fun t => ∑ i : Fin m,
        (y i * Real.log (logistic ((dot θ (X i) - θ j * X i j) + X i j * t))
         + (1 - y i) *
            Real.log (1 - logistic ((dot θ (X i) - θ j * X i j) + X i j * t))))
        (∑ i : Fin m,
          (y i - logistic ((dot θ (X i) - θ j * X i j) + X i j * θ j)) * X i j)
        (θ j) :=
      HasDerivAt.sum (fun i _ =>
        hasDerivAt_xent (dot θ (X i) - θ j * X i j) (X i j) (y i) (θ j))
    have hreg := hasDerivAt_reg θ j (θ j)
    have htot := (hsum.const_mul (-(1 / (m : ℝ)))).add
      (hreg.const_mul (lam / (2 * (m : ℝ))))
    convert htot using 1
    have hsc : ∀ i : Fin m,
        (y i - logistic ((dot θ (X i) - θ j * X i j) + X i j * θ j)) * X i j
          = -((logistic (dot θ (X i)) - y i) * X i j) := by
      intro i
      rw [show (dot θ (X i) - θ j * X i j) + X i j * θ j = dot θ (X i) from by ring]
      ring
    rw [Finset.sum_congr rfl (fun i _ => hsc i)]
    unfold cost_gradient
    rw [Finset.sum_neg_distrib, neg_mul_neg]
    congr 1
    by_cases hj : (j : ℕ) = 0
    · rw [if_pos hj, if_pos hj, mul_zero]
    · rw [if_neg hj, if_neg hj]
      rw [show lam / (2 * (m : ℝ)) * (2 * θ j) = 2 * (lam * θ j) / (2 * (m : ℝ))
          from by ring]
      rw [mul_div_mul_left (lam * θ j) (m : ℝ) (two_ne_zero)]
      rw [div_mul_eq_mul_div]

/-- C8: for every design matrix X, label vector y with entries in {0,1},
parameter vector θ and λ ≥ 0, the value of `cost_function` is
non-negative. -/
theorem cost_function_nonneg {m n : ℕ} (X : Fin m → Fin n → ℝ)
    (y : Fin m → ℝ) (θ : Fin n → ℝ) (lam : ℝ)
    (hy : ∀ i, y i = 0 ∨ y i = 1) (hlam : 0 ≤ lam) :
    0 ≤ cost_function X y θ lam := by
  unfold cost_function
  have hterm : ∀ i : Fin m, y i * Real.log (logistic (dot θ (X i)))
      + (1 - y i) * Real.log (1 - logistic (dot θ (X i))) ≤ 0 := by
    intro i
    have hp := logistic_pos (dot θ (X i))
    have hl := logistic_lt_one (dot θ (X i))
    rcases hy i with h | h
    · rw [h]
      simp only [zero_mul, zero_add, sub_zero, one_mul]
      exact Real.log_nonpos (by linarith) (by linarith)
    · rw [h]
      simp only [one_mul, sub_self, zero_mul, add_zero]
      exact Real.log_nonpos (le_of_lt hp) (le_of_lt hl)
  have hS := Finset.sum_nonpos (fun i (_ : i ∈ Finset.univ) => hterm i)
  have h1 : 0 ≤ -(1 / (m : ℝ)) * ∑ i, (y i * Real.log (logistic (dot θ (X i)))
      + (1 - y i) * Real.log (1 - logistic (dot θ (X i)))) := by
    rw [neg_mul_comm]
    exact mul_nonneg (by positivity) (neg_nonneg.mpr hS)
  have h2 : 0 ≤ lam / (2 * (m : ℝ)) *
      ∑ j ∈ Finset.univ.filter (fun j : Fin n => (j : ℕ) ≠ 0), θ j ^ 2 :=
    mul_nonneg (div_nonneg hlam (by positivity))
      (Finset.sum_nonneg fun j _ => sq_nonneg _)
  linarith

theorem cost_function_nonneg_witness :
    (∀ i : Fin 1, yex i = 0 ∨ yex i = 1) ∧ (0 : ℝ) ≤ 1
    ∧ 0 ≤ cost_function Xex yex thetaex 1 :=
  ⟨fun _ => Or.inr rfl, by norm_num,
    cost_function_nonneg Xex yex thetaex 1 (fun _ => Or.inr rfl) (by norm_num)⟩

theorem le_clip (eps p : ℝ) : eps ≤ clip eps p := le_max_left _ _

theorem clip_le (eps p : ℝ) (h : eps ≤ 1 / 2) : clip eps p ≤ 1 - eps :=
  max_le (by linarith) (min_le_left _ _)

/-- C7: with the spec-mandated epsilon guard, the probability fed to each
logarithm is bounded away from exactly 0 and 1 (it lies in `[ε, 1-ε]`), and
the cost the evaluator returns is a finite value: it lies between `0` and
`-log ε` plus the regularization term, whatever the scores `θ·x_i` are, and
no error surfaces to the caller. -/
theorem cost_function_clamped_finite {m n : ℕ} (X : Fin m → Fin n → ℝ)
    (y : Fin m → ℝ) (θ : Fin n → ℝ) (lam eps : ℝ)
    (heps : 0 < eps) (heps2 : eps ≤ 1 / 2)
    (hy : ∀ i, 0 ≤ y i ∧ y i ≤ 1) (hlam : 0 ≤ lam) :
    (∀ p : ℝ, eps ≤ clip eps p ∧ clip eps p ≤ 1 - eps)
    ∧ 0 ≤ cost_function_clamped eps X y θ lam
    ∧ cost_function_clamped eps X y θ lam
        ≤ -Real.log eps + lam / (2 * (m : ℝ)) *
            ∑ j ∈ Finset.univ.filter (fun j : Fin n => (j : ℕ) ≠ 0), θ j ^ 2 := by
  have hloge : Real.log eps ≤ 0 := Real.log_nonpos (le_of_lt heps) (by linarith)
  have hterm : ∀ i : Fin m,
      Real.log eps ≤ y i * Real.log (clip eps (logistic (dot θ (X i))))
        + (1 - y i) * Real.log (1 - clip eps (logistic (dot θ (X i))))
      ∧ y i * Real.log (clip eps (logistic (dot θ (X i))))
        + (1 - y i) * Real.log (1 - clip eps (logistic (dot θ (X i)))) ≤ 0 := by
    intro i
    set p := clip eps (logistic (dot θ (X i))) with hp
    have hp1 : eps ≤ p := le_clip _ _
    have hp2 : p ≤ 1 - eps := clip_le _ _ heps2
    have hppos : 0 < p := lt_of_lt_of_le heps hp1
    have hqpos : 0 < 1 - p := by linarith
    have hlogp0 : Real.log p ≤ 0 := Real.log_nonpos (le_of_lt hppos) (by linarith)
    have hlogq0 : Real.log (1 - p) ≤ 0 :=
      Real.log_nonpos (le_of_lt hqpos) (by linarith)
    have hlogp1 : Real.log eps ≤ Real.log p := Real.log_le_log heps hp1
    have hlogq1 : Real.log eps ≤ Real.log (1 - p) :=
      Real.log_le_log heps (by linarith)
    have hy1 := (hy i).1
    have hy2 := (hy i).2
    constructor
    · have ha : y i * Real.log eps ≤ y i * Real.log p :=
        mul_le_mul_of_nonneg_left hlogp1 hy1
      have hb : (1 - y i) * Real.log eps ≤ (1 - y i) * Real.log (1 - p) :=
        mul_le_mul_of_nonneg_left hlogq1 (by linarith)
      have hc : y i * Real.log eps + (1 - y i) * Real.log eps = Real.log eps :=
        by ring
      linarith
    · have ha : y i * Real.log p ≤ 0 :=
        mul_nonpos_iff.mpr (Or.inl ⟨hy1, hlogp0⟩)
      have hb : (1 - y i) * Real.log (1 - p) ≤ 0 :=
        mul_nonpos_iff.mpr (Or.inl ⟨by linarith, hlogq0⟩)
      linarith
  have hS0 := Finset.sum_nonpos
    (fun i (_ : i ∈ Finset.univ) => (hterm i).2)
  have hreg : 0 ≤ lam / (2 * (m : ℝ)) *
      ∑ j ∈ Finset.univ.filter (fun j : Fin n => (j : ℕ) ≠ 0), θ j ^ 2 :=
    mul_nonneg (div_nonneg hlam (by positivity))
      (Finset.sum_nonneg fun j _ => sq_nonneg _)
  refine ⟨fun p => ⟨le_clip eps p, clip_le eps p heps2⟩, ?_, ?_⟩
  · unfold cost_function_clamped
    have h1 : 0 ≤ -(1 / (m : ℝ)) *
        ∑ i, (y i * Real.log (clip eps (logistic (dot θ (X i))))
          + (1 - y i) * Real.log (1 - clip eps (logistic (dot θ (X i))))) := by
      rw [neg_mul_comm]
      exact mul_nonneg (by positivity) (neg_nonneg.mpr hS0)
    linarith
  · unfold cost_function_clamped
    have hcard : ((Finset.univ : Finset (Fin m)).card : ℝ) = (m : ℝ) := by simp
    have hSlb : (m : ℝ) * Real.log eps ≤
        ∑ i, (y i * Real.log (clip eps (logistic (dot θ (X i))))
          + (1 - y i) * Real.log (1 - clip eps (logistic (dot θ (X i))))) := by
      have := Finset.card_nsmul_le_sum Finset.univ _ (Real.log eps)
        (fun i (_ : i ∈ Finset.univ) => (hterm i).1)
      rw [nsmul_eq_mul, hcard] at this
      exact this
    have hmain : -(1 / (m : ℝ)) *
        ∑ i, (y i * Real.log (clip eps (logistic (dot θ (X i))))
          + (1 - y i) * Real.log (1 - clip eps (logistic (dot θ (X i)))))
        ≤ -Real.log eps := by
      rcases Nat.eq_zero_or_pos m with hm | hm
      · subst hm
        simp only [Nat.cast_zero, div_zero, neg_zero, zero_mul]
        linarith
      · have hmne : (m : ℝ) ≠ 0 := Nat.cast_ne_zero.mpr hm.ne'
        have hneg : -(1 / (m : ℝ)) ≤ 0 := by
          have h01 : (0 : ℝ) ≤ 1 / (m : ℝ) := by positivity
          linarith
        have hmul := mul_le_mul_of_nonpos_left hSlb hneg
        have heq : -(1 / (m : ℝ)) * ((m : ℝ) * Real.log eps) = -Real.log eps := by
          field_simp
          ring
        linarith
    linarith

theorem cost_function_clamped_finite_witness :
    (0 : ℝ) < 1 / 4 ∧ (1 / 4 : ℝ) ≤ 1 / 2
    ∧ (∀ i : Fin 1, 0 ≤ yex i ∧ yex i ≤ 1) ∧ (0 : ℝ) ≤ 1
    ∧ ((∀ p : ℝ, 1 / 4 ≤ clip (1 / 4) p ∧ clip (1 / 4) p ≤ 1 - 1 / 4)
       ∧ 0 ≤ cost_function_clamped (1 / 4) Xex yex thetaex 1
       ∧ cost_function_clamped (1 / 4) Xex yex thetaex 1
          ≤ -Real.log (1 / 4) + 1 / (2 * ((1 : ℕ) : ℝ)) *
              ∑ j ∈ Finset.univ.filter (fun j : Fin 1 => (j : ℕ) ≠ 0),
                thetaex j ^ 2) :=
  ⟨by norm_num, by norm_num, fun i => ⟨by norm_num [yex], by norm_num [yex]⟩,
    by norm_num,
    cost_function_clamped_finite Xex yex thetaex 1 (1 / 4) (by norm_num)
      (by norm_num) (fun i => ⟨by norm_num [yex], by norm_num [yex]⟩)
      (by norm_num)⟩

theorem argmaxIdx_lt_length {α : Type} [LinearOrder α] :
    ∀ l : List α, l ≠ [] → argmaxIdx l < l.length
  | [], h => absurd rfl h
  | [_], _ => by simp [argmaxIdx]
  | a :: b :: rest, _ => by
    have ih := argmaxIdx_lt_length (b :: rest) (by simp)
    simp only [argmaxIdx]
    by_cases hc : a < (b :: rest).getD (argmaxIdx (b :: rest)) b
    · rw [if_pos hc]
      simpa using Nat.succ_lt_succ ih
    · rw [if_neg hc]
      simp

theorem argmaxIdx_le {α : Type} [LinearOrder α] :
    ∀ (l : List α) (i : Fin l.length) (hl : argmaxIdx l < l.length),
      l.get i ≤ l.get ⟨argmaxIdx l, hl⟩
  | [], i, _ => absurd i.isLt (Nat.not_lt_zero _)
  | [a], i, hl => by
    rcases i with ⟨iv, hiv⟩
    have hiv0 : iv = 0 := by
      simp only [List.length_singleton] at hiv
      omega
    subst hiv0
    simp [argmaxIdx]
  | a :: b :: rest, i, hl => by
    have hlen : argmaxIdx (b :: rest) < (b :: rest).length :=
      argmaxIdx_lt_length (b :: rest) (by simp)
    have hgetD : (b :: rest).getD (argmaxIdx (b :: rest)) b
        = (b :: rest).get ⟨argmaxIdx (b :: rest), hlen⟩ :=
      List.getD_eq_get _ _ hlen
    simp only [argmaxIdx] at hl ⊢
    by_cases hc : a < (b :: rest).getD (argmaxIdx (b :: rest)) b
    · rw [if_pos hc] at hl
      simp only [if_pos hc]
      rw [hgetD] at hc
      rcases i with ⟨iv, hiv⟩
      cases iv with
      | zero => simpa using le_of_lt hc
      | succ iw =>
        have ih := argmaxIdx_le (b :: rest) ⟨iw, by simpa using hiv⟩ hlen
        simpa using ih
    · rw [if_neg hc] at hl
      simp only [if_neg hc]
      push_neg at hc
      rw [hgetD] at hc
      rcases i with ⟨iv, hiv⟩
      cases iv with
      | zero => simp
      | succ iw =>
        have ih := argmaxIdx_le (b :: rest) ⟨iw, by simpa using hiv⟩ hlen
        have hle := le_trans ih hc
        simpa using hle

theorem argmaxIdx_first {α : Type} [LinearOrder α] :
    ∀ (l : List α) (i : Fin l.length) (hl : argmaxIdx l < l.length),
      (i : ℕ) < argmaxIdx l → l.get i < l.get ⟨argmaxIdx l, hl⟩
  | [], i, _, _ => absurd i.isLt (Nat.not_lt_zero _)
  | [a], i, hl, hi => by
    simp [argmaxIdx] at hi
  | a :: b :: rest, i, hl, hi => by
    have hlen : argmaxIdx (b :: rest) < (b :: rest).length :=
      argmaxIdx_lt_length (b :: rest) (by simp)
    have hgetD : (b :: rest).getD (argmaxIdx (b :: rest)) b
        = (b :: rest).get ⟨argmaxIdx (b :: rest), hlen⟩ :=
      List.getD_eq_get _ _ hlen
    simp only [argmaxIdx] at hl hi ⊢
    by_cases hc : a < (b :: rest).getD (argmaxIdx (b :: rest)) b
    · rw [if_pos hc] at hl hi
      simp only [if_pos hc]
      rw [hgetD] at hc
      rcases i with ⟨iv, hiv⟩
      cases iv with
      | zero => simpa using hc
      | succ iw =>
        have ih := argmaxIdx_first (b :: rest) ⟨iw, by simpa using hiv⟩ hlen
          (by simpa using Nat.lt_of_succ_lt_succ hi)
        simpa using ih
    · rw [if_neg hc] at hi
      exact absurd hi (Nat.not_lt_zero _)

theorem ova_scores_length {n : ℕ} (K : ℕ) (Θ : Fin K → Fin n → ℝ)
    (x : Fin n → ℝ) : (ova_scores K Θ x).length = K := by
  simp [ova_scores]

theorem ova_scores_get {n : ℕ} (K : ℕ) (Θ : Fin K → Fin n → ℝ)
    (x : Fin n → ℝ) (k : ℕ) (hk : k < K)
    (hk2 : k < (ova_scores K Θ x).length) :
    (ova_scores K Θ x).get ⟨k, hk2⟩ = logistic (dot (Θ ⟨k, hk⟩) x) := by
  simp only [ova_scores, List.get_ofFn]
  congr 1

/-- C5: the one-vs-all wrapper trains class k on the binary label vector with
entry 1 exactly when the true label equals k (else 0), running the Gradient
Descent Driver independently per class to obtain the rows of Θ; and the
prediction for an example x is the arg-max over k of `Logistic(Θₖ·x)`: its
score is maximal among all classes, and every class of strictly lower index
has strictly smaller score (ties are broken by the lowest class index). -/
theorem onevsall_train_predict_spec {m n : ℕ} (K : ℕ) (X : Fin m → Fin n → ℝ)
    (y : Fin m → ℕ) (θ0 : Fin n → ℝ) (α lam : ℝ) (T : ℕ)
    (Θ : Fin K → Fin n → ℝ) (x : Fin n → ℝ) (hK : 0 < K) :
    (∀ k : Fin K, onevsall_train K X y θ0 α T lam k
        = (gradient_descent X (ova_label y (k : ℕ)) θ0 α T lam).1)
    ∧ (∀ (k : ℕ) (i : Fin m), (ova_label y k i = 1 ↔ y i = k)
        ∧ (ova_label y k i = 0 ↔ y i ≠ k))
    ∧ ∃ hp : predict_onevsall K Θ x < K,
        (∀ k : Fin K, logistic (dot (Θ k) x)
            ≤ logistic (dot (Θ ⟨predict_onevsall K Θ x, hp⟩) x))
        ∧ ∀ k : Fin K, (k : ℕ) < predict_onevsall K Θ x →
            logistic (dot (Θ k) x)
              < logistic (dot (Θ ⟨predict_onevsall K Θ x, hp⟩) x) := by
  refine ⟨fun k => rfl, ?_, ?_⟩
  · intro k i
    unfold ova_label
    constructor
    · by_cases h : y i = k <;> simp [h]
    · by_cases h : y i = k <;> simp [h]
  · have hlen := ova_scores_length K Θ x
    have hne : ova_scores K Θ x ≠ [] := by
      intro h
      rw [h] at hlen
      simp at hlen
      omega
    have hp1 : argmaxIdx (ova_scores K Θ x) < (ova_scores K Θ x).length :=
      argmaxIdx_lt_length _ hne
    have hp : predict_onevsall K Θ x < K :=
      lt_of_lt_of_eq hp1 hlen
    have e2 : (ova_scores K Θ x).get ⟨argmaxIdx (ova_scores K Θ x), hp1⟩
        = logistic (dot (Θ ⟨predict_onevsall K Θ x, hp⟩) x) := by
      rw [ova_scores_get K Θ x (argmaxIdx (ova_scores K Θ x))
        (lt_of_lt_of_eq hp1 hlen) hp1]
      rfl
    refine ⟨hp, fun k => ?_, fun k hk => ?_⟩
    · have hkl : (k : ℕ) < (ova_scores K Θ x).length := by
        rw [hlen]
        exact k.isLt
      have h1 := argmaxIdx_le (ova_scores K Θ x) ⟨(k : ℕ), hkl⟩ hp1
      have e1 : (ova_scores K Θ x).get ⟨(k : ℕ), hkl⟩
          = logistic (dot (Θ k) x) := by
        rw [ova_scores_get K Θ x (k : ℕ) k.isLt hkl]
      rw [e1, e2] at h1
      exact h1
    · have hkl : (k : ℕ) < (ova_scores K Θ x).length := by
        rw [hlen]
        exact k.isLt
      have h1 := argmaxIdx_first (ova_scores K Θ x) ⟨(k : ℕ), hkl⟩ hp1 hk
      have e1 : (ova_scores K Θ x).get ⟨(k : ℕ), hkl⟩
          = logistic (dot (Θ k) x) := by
        rw [ova_scores_get K Θ x (k : ℕ) k.isLt hkl]
      rw [e1, e2] at h1
      exact h1

theorem onevsall_train_predict_spec_witness :
    0 < 1 ∧
    ((∀ k : Fin 1, onevsall_train 1 Xex yclassex thetaex 1 2 0 k
        = (gradient_descent Xex (ova_label yclassex (k : ℕ)) thetaex 1 2 0).1)
    ∧ (∀ (k : ℕ) (i : Fin 1), (ova_label yclassex k i = 1 ↔ yclassex i = k)
        ∧ (ova_label yclassex k i = 0 ↔ yclassex i ≠ k))
    ∧ ∃ hp : predict_onevsall 1 Xex yex < 1,
        (∀ k : Fin 1, logistic (dot (Xex k) yex)
            ≤ logistic (dot (Xex ⟨predict_onevsall 1 Xex yex, hp⟩) yex))
        ∧ ∀ k : Fin 1, (k : ℕ) < predict_onevsall 1 Xex yex →
            logistic (dot (Xex k) yex)
              < logistic (dot (Xex ⟨predict_onevsall 1 Xex yex, hp⟩) yex)) :=
  ⟨Nat.one_pos,
    onevsall_train_predict_spec 1 Xex yclassex thetaex 1 0 2 Xex yex Nat.one_pos⟩

theorem gd_hist_length {m n : ℕ} (X : Fin m → Fin n → ℝ) (y : Fin m → ℝ)
    (θ : Fin n → ℝ) (α : ℝ) (T : ℕ) (lam : ℝ) :
    (gradient_descent X y θ α T lam).2.length = T := by
  rw [gd_spec]
  simp

/-- C6: if X's column count differs from θ's length, or X's row count differs
from y's length, or λ < 0, the training function raises a descriptive error
before any iteration runs and produces no outputs; otherwise no error is
raised and all T iterations complete with both outputs returned (final θ of
the same length as θ₀ and a cost history of length T) — there is no
partial-failure mode across iterations. -/
theorem gradient_descent_checked_spec (X : List (List ℝ)) (y θ0 : List ℝ)
    (α : ℝ) (T : ℕ) (lam : ℝ) :
    ((lam < 0 ∨ (∃ row ∈ X, row.length ≠ θ0.length) ∨ X.length ≠ y.length) →
      ∃ msg, gradient_descent_checked X y θ0 α T lam = Except.error msg)
    ∧ (0 ≤ lam → (∀ row ∈ X, row.length = θ0.length) → X.length = y.length →
      ∃ θf hist, gradient_descent_checked X y θ0 α T lam = Except.ok (θf, hist)
        ∧ θf.length = θ0.length ∧ hist.length = T) := by
  constructor
  · intro h
    unfold gradient_descent_checked
    by_cases h1 : lam < 0
    · rw [if_pos h1]
      exact ⟨_, rfl⟩
    · rw [if_neg h1]
      by_cases h2 : ∀ row ∈ X, row.length = θ0.length
      · rw [dif_pos h2]
        by_cases h3 : X.length = y.length
        · rcases h with h | h | h
          · exact absurd h h1
          · rcases h with ⟨row, hrow, hne⟩
            exact absurd (h2 row hrow) hne
          · exact absurd h3 h
        · rw [dif_neg h3]
          exact ⟨_, rfl⟩
      · rw [dif_neg h2]
        exact ⟨_, rfl⟩
  · intro h1 h2 h3
    unfold gradient_descent_checked
    rw [if_neg (not_lt.mpr h1), dif_pos h2, dif_pos h3]
    refine ⟨_, _, rfl, ?_, ?_⟩
    · simp
    · exact gd_hist_length _ _ _ _ _ _

theorem gradient_descent_checked_spec_witness :
    ((0 : ℝ) ≤ 0 ∧ (∀ row ∈ [[(1 : ℝ)]], row.length = [(1 : ℝ)].length)
      ∧ [[(1 : ℝ)]].length = [(1 : ℝ)].length)
    ∧ ∃ θf hist,
        gradient_descent_checked [[(1 : ℝ)]] [(1 : ℝ)] [(1 : ℝ)] 1 2 0
          = Except.ok (θf, hist)
        ∧ θf.length = [(1 : ℝ)].length ∧ hist.length = 2 :=
  ⟨⟨le_refl 0, by simp, rfl⟩,
    (gradient_descent_checked_spec [[(1 : ℝ)]] [(1 : ℝ)] [(1 : ℝ)] 1 2 0).2
      (le_refl 0) (by simp) rfl⟩

/-- C9: every design matrix handed to the core satisfies the invariant that
all rows have identical length n+1 with column 0 equal to 1: the notebook
builds the matrix by prepending a column of ones, row selection (the
train/test splits) preserves the invariant, and `extract_features` prepends
the constant 1 to every new feature vector. -/
theorem design_matrix_bias_invariant (X0 : List (List ℝ)) (idx : List ℕ)
    (x0 : List ℝ) (nf : ℕ) (hX0 : ∀ row ∈ X0, row.length = nf)
    (hidx : ∀ i ∈ idx, i < (addBias X0).length) :
    (∀ row ∈ addBias X0, row.length = nf + 1 ∧ row.head? = some 1)
    ∧ (∀ row ∈ selectRows (addBias X0) idx,
        row.length = nf + 1 ∧ row.head? = some 1)
    ∧ (extract_features x0).length = x0.length + 1
    ∧ (extract_features x0).head? = some 1 := by
  have hmain : ∀ row ∈ addBias X0, row.length = nf + 1 ∧ row.head? = some 1 := by
    intro row hrow
    unfold addBias at hrow
    rcases List.mem_map.mp hrow with ⟨r0, hr0, hrw⟩
    rw [← hrw]
    exact ⟨by simp [hX0 r0 hr0], rfl⟩
  refine ⟨hmain, ?_, rfl, rfl⟩
  intro row hrow
  unfold selectRows at hrow
  rcases List.mem_map.mp hrow with ⟨i, hi, hrw⟩
  have hlt := hidx i hi
  have hmem : (addBias X0).getD i [] ∈ addBias X0 := by
    rw [List.getD_eq_get _ _ hlt]
    exact List.get_mem _ _ _
  rw [← hrw]
  exact hmain _ hmem

theorem design_matrix_bias_invariant_witness :
    (∀ row ∈ [[(2 : ℝ)]], row.length = 1)
    ∧ (∀ i ∈ [0], i < (addBias [[(2 : ℝ)]]).length)
    ∧ ((∀ row ∈ addBias [[(2 : ℝ)]], row.length = 1 + 1 ∧ row.head? = some 1)
      ∧ (∀ row ∈ selectRows (addBias [[(2 : ℝ)]]) [0],
          row.length = 1 + 1 ∧ row.head? = some 1)
      ∧ (extract_features [(2 : ℝ)]).length = [(2 : ℝ)].length + 1
      ∧ (extract_features [(2 : ℝ)]).head? = some 1) :=
  ⟨by simp, by simp [addBias],
    design_matrix_bias_invariant [[(2 : ℝ)]] [0] [(2 : ℝ)] 1 (by simp)
      (by simp [addBias])⟩

theorem logistic_lt_half (z : ℝ) (hz : z < 0) : logistic z < 1 / 2 := by
  have h1 : 1 < Real.exp (-z) := by
    have := Real.exp_lt_exp.mpr (show (0 : ℝ) < -z by linarith)
    simpa using this
  unfold logistic
  rw [div_lt_div_iff (one_add_exp_pos z) two_pos]
  linarith

theorem half_lt_logistic (z : ℝ) (hz : 0 < z) : 1 / 2 < logistic z := by
  have h1 : Real.exp (-z) < 1 := by
    have := Real.exp_lt_exp.mpr (show -z < (0 : ℝ) by linarith)
    simpa using this
  unfold logistic
  rw [div_lt_div_iff two_pos (one_add_exp_pos z)]
  linarith

theorem npRound_of_lt_half (p : ℝ) (h0 : 0 < p) (h : p < 1 / 2) :
    npRound p = 0 := by
  unfold npRound
  have hfr : Int.fract p = p := Int.fract_eq_self.mpr ⟨le_of_lt h0, by linarith⟩
  rw [hfr, if_neg (ne_of_lt h), round_eq, Int.floor_eq_zero_iff]
  constructor
  · linarith
  · linarith

theorem npRound_of_half_lt (p : ℝ) (h : 1 / 2 < p) (h1 : p < 1) :
    npRound p = 1 := by
  unfold npRound
  have hfr : Int.fract p = p := Int.fract_eq_self.mpr ⟨by linarith, h1⟩
  rw [hfr, if_neg (ne_of_gt h), round_eq, Int.floor_eq_iff]
  constructor
  · push_cast
    linarith
  · push_cast
    linarith

/-- C10: for every θ and feature vector x with θ·x ≠ 0, the notebook's two
prediction rules agree: rounding Logistic(θ·x) and classifying spam on 1
yields spam exactly when the sign rule (ham if θ·x < 0, spam otherwise)
yields spam. -/
theorem prediction_rules_agree {n : ℕ} (θ x : Fin n → ℝ) (h : dot θ x ≠ 0) :
    (test_set_spam θ x ↔ new_msg_spam θ x) := by
  unfold test_set_spam new_msg_spam h_theta
  rcases lt_or_gt_of_ne h with hlt | hgt
  · have hp := logistic_pos (dot θ x)
    have hh := logistic_lt_half (dot θ x) hlt
    rw [npRound_of_lt_half _ hp hh]
    exact iff_of_false (by norm_num) (not_not_intro hlt)
  · have hh := half_lt_logistic (dot θ x) hgt
    have h1 := logistic_lt_one (dot θ x)
    rw [npRound_of_half_lt _ hh h1]
    exact iff_of_true rfl (not_lt.mpr (le_of_lt hgt))

theorem prediction_rules_agree_witness :
    dot yex yex ≠ 0 ∧ (test_set_spam yex yex ↔ new_msg_spam yex yex) :=
  ⟨by norm_num [dot, yex, Fin.sum_univ_one],
    prediction_rules_agree yex yex (by norm_num [dot, yex, Fin.sum_univ_one])⟩

